import Mathlib

/-!
# Verification of the starknet_crypto primitives core

The repository exposes, through `src/math/crypto/starknet_crypto/starknet_crypto.h`,
a 252-bit prime-field cryptographic core: field elements (`felt_t`, 32 bytes),
a Poseidon permutation over a 3-felt state (`poseidon_permute`), a two-input
Pedersen hash (`pedersen_hash`) and ECDSA-style signature verification
(`verify_signature`).  Only the C declarations are present in the repository;
the bodies are external.  Every operation below is therefore modelled from the
specification document, and each such definition carries a doc comment saying
what is modelled.

The development is over `Nat` with explicit reduction `% p`, where
`p = 2^251 + 17·2^192 + 1` is the Stark prime.  All definitions are executable.
-/

/-- Fuel-driven modular exponentiation by squaring, structurally recursive so
that the kernel can evaluate it on 252-bit arguments. -/
def powModAux : Nat → Nat → Nat → Nat → Nat
  | 0, m, _, _ => 1 % m
  | fuel+1, m, a, e =>
    if e = 0 then 1 % m
    else
      let r := powModAux fuel m (a * a % m) (e / 2)
      if e % 2 = 1 then a * r % m else r

/-- `powMod m a e = a ^ e % m`, for exponents below `2^256`. -/
def powMod (m a e : Nat) : Nat := powModAux 256 m a e

theorem powModAux_eq (fuel : Nat) : ∀ m a e : Nat, e < 2 ^ fuel →
    powModAux fuel m a e = a ^ e % m := by
  induction fuel with
  | zero =>
    intro m a e he
    interval_cases e
    simp [powModAux]
  | succ fuel ih =>
    intro m a e he
    by_cases he0 : e = 0
    · simp [powModAux, he0]
    · have hlt : e / 2 < 2 ^ fuel := by
        have : e < 2 ^ fuel * 2 := by
          simpa [pow_succ] using he
        omega
      have hrec := ih m (a * a % m) (e / 2) hlt
      have hsq : (a * a % m) ^ (e / 2) % m = (a * a) ^ (e / 2) % m :=
        (Nat.pow_mod _ _ _).symm
      have hkey : (a * a) ^ (e / 2) = a ^ (2 * (e / 2)) := by
        rw [two_mul, pow_add, ← mul_pow]
      rcases Nat.even_or_odd e with hpar | hpar
      · have h2 : e % 2 = 0 := Nat.even_iff.mp hpar
        have hsplit : 2 * (e / 2) = e := by omega
        simp only [powModAux, he0, if_false, h2]
        norm_num
        rw [hrec, hsq, hkey, hsplit]
      · have h2 : e % 2 = 1 := Nat.odd_iff.mp hpar
        have hsplit : 2 * (e / 2) + 1 = e := by omega
        simp only [powModAux, he0, if_false, h2, if_true]
        rw [hrec, hsq, hkey]
        rw [Nat.mul_mod, Nat.mod_mod_of_dvd _ dvd_rfl, ← Nat.mul_mod]
        have hme : a * a ^ (2 * (e / 2)) = a ^ e := by
          rw [mul_comm, ← pow_succ, hsplit]
        rw [hme]

theorem powMod_eq (m a e : Nat) (he : e < 2 ^ 256) : powMod m a e = a ^ e % m :=
  powModAux_eq 256 m a e he

/-- The Stark prime `p = 2^251 + 17·2^192 + 1`, the field modulus of the core. -/
def pStark : Nat := 2 ^ 251 + 17 * 2 ^ 192 + 1

instance : NeZero pStark := ⟨by norm_num [pStark]⟩

theorem pStark_pos : 0 < pStark := by norm_num [pStark]

theorem pStark_gt_two : 2 < pStark := by norm_num [pStark]

theorem pStark_lt_exp : pStark - 1 < 2 ^ 256 := by norm_num [pStark]

/-- Nat values below `p` are separated by the cast into `ZMod p`. -/
theorem zmod_nat_inj {a b : Nat} (ha : a < pStark) (hb : b < pStark)
    (h : (a : ZMod pStark) = (b : ZMod pStark)) : a = b := by
  have := congrArg ZMod.val h
  rwa [ZMod.val_cast_of_lt ha, ZMod.val_cast_of_lt hb] at this

theorem cast_powMod (a e : Nat) (he : e < 2 ^ 256) :
    ((powMod pStark a e : Nat) : ZMod pStark) = (a : ZMod pStark) ^ e := by
  rw [powMod_eq _ _ _ he, ZMod.natCast_mod, Nat.cast_pow]

theorem zmod_pow_eq_of_powMod {a e v : Nat} (he : e < 2 ^ 256)
    (h : powMod pStark a e = v) : (a : ZMod pStark) ^ e = (v : ZMod pStark) := by
  rw [← cast_powMod a e he, h]

theorem zmod_pow_ne_one_of_powMod {a e : Nat} (he : e < 2 ^ 256)
    (h : powMod pStark a e ≠ 1) : (a : ZMod pStark) ^ e ≠ 1 := by
  intro hc
  apply h
  have h1 : ((powMod pStark a e : Nat) : ZMod pStark) = ((1 : Nat) : ZMod pStark) := by
    rw [cast_powMod a e he, hc, Nat.cast_one]
  exact zmod_nat_inj (by
    have := Nat.mod_lt (a ^ e) pStark_pos
    rw [← powMod_eq pStark a e he] at this
    exact this) (lt_trans (by norm_num) pStark_gt_two) h1

theorem zmod_nat_inj_of {n a b : Nat} (hn : 1 < n) (ha : a < n) (hb : b < n)
    (h : (a : ZMod n) = (b : ZMod n)) : a = b := by
  haveI : NeZero n := ⟨by omega⟩
  have := congrArg ZMod.val h
  rwa [ZMod.val_cast_of_lt ha, ZMod.val_cast_of_lt hb] at this

theorem cast_powMod_of (n a e : Nat) (he : e < 2 ^ 256) :
    ((powMod n a e : Nat) : ZMod n) = (a : ZMod n) ^ e := by
  rw [powMod_eq _ _ _ he, ZMod.natCast_mod, Nat.cast_pow]

theorem powMod_lt (n a e : Nat) (hn : 0 < n) (he : e < 2 ^ 256) : powMod n a e < n := by
  rw [powMod_eq _ _ _ he]
  exact Nat.mod_lt _ hn

/-- A prime dividing a product of prime powers is one of the bases. -/
theorem prime_dvd_factors : ∀ {facs : List (Nat × Nat)},
    (∀ qk ∈ facs, Nat.Prime qk.1) → ∀ {q : Nat}, q.Prime →
    q ∣ (facs.map fun qk => qk.1 ^ qk.2).prod → ∃ qk ∈ facs, q = qk.1 := by
  intro facs
  induction facs with
  | nil =>
    intro _ q hq hdvd
    rw [List.map_nil, List.prod_nil] at hdvd
    exact absurd (Nat.dvd_one.mp hdvd) hq.ne_one
  | cons qk facs ih =>
    intro hpr q hq hdvd
    rw [List.map_cons, List.prod_cons] at hdvd
    rcases (Nat.Prime.dvd_mul hq).mp hdvd with h | h
    · refine ⟨qk, List.mem_cons_self qk facs, ?_⟩
      exact (Nat.prime_dvd_prime_iff_eq hq (hpr qk (List.mem_cons_self qk facs))).mp
        (hq.dvd_of_dvd_pow h)
    · obtain ⟨qk', hmem, heq⟩ := ih (fun x hx => hpr x (List.mem_cons_of_mem qk hx)) hq h
      exact ⟨qk', List.mem_cons_of_mem qk hmem, heq⟩

/-- A reusable Lucas primality certificate: a witness `a`, the factorization
of `p - 1` into prime powers, and kernel-checkable `powMod` conditions. -/
theorem lucas_cert (p a : Nat) (facs : List (Nat × Nat))
    (hp : 1 < p) (hlt : p - 1 < 2 ^ 256)
    (hfac : (facs.map fun qk => qk.1 ^ qk.2).prod = p - 1)
    (hprimes : ∀ qk ∈ facs, Nat.Prime qk.1)
    (hpow : powMod p a (p - 1) = 1)
    (hnes : ∀ qk ∈ facs, powMod p a ((p - 1) / qk.1) ≠ 1) :
    Nat.Prime p := by
  haveI : NeZero p := ⟨by omega⟩
  refine lucas_primality p ((a : Nat) : ZMod p) ?_ ?_
  · rw [← cast_powMod_of p a _ hlt, hpow, Nat.cast_one]
  · intro q hq hdvd
    rw [← hfac] at hdvd
    obtain ⟨qk, hmem, rfl⟩ := prime_dvd_factors hprimes hq hdvd
    intro hc
    apply hnes qk hmem
    have hexp : (p - 1) / qk.1 < 2 ^ 256 := lt_of_le_of_lt (Nat.div_le_self _ _) hlt
    have hcast : ((powMod p a ((p - 1) / qk.1) : Nat) : ZMod p)
        = ((1 : Nat) : ZMod p) := by
      rw [cast_powMod_of p a _ hexp, hc, Nat.cast_one]
    exact zmod_nat_inj_of hp (powMod_lt p a _ (by omega) hexp) hp hcast

theorem prime_1233929 : Nat.Prime 1233929 := by
  refine lucas_cert 1233929 6 [(2, 3), (17, 1), (43, 1), (211, 1)]
    (by norm_num) (by norm_num) (by decide) ?_ (by decide) (by decide)
  intro qk hmem
  fin_cases hmem <;> norm_num

theorem prime_2467859 : Nat.Prime 2467859 := by
  refine lucas_cert 2467859 2 [(2, 1), (1233929, 1)]
    (by norm_num) (by norm_num) (by decide) ?_ (by decide) (by decide)
  intro qk hmem
  fin_cases hmem
  · norm_num
  · exact prime_1233929

theorem prime_4935719 : Nat.Prime 4935719 := by
  refine lucas_cert 4935719 17 [(2, 1), (2467859, 1)]
    (by norm_num) (by norm_num) (by decide) ?_ (by decide) (by decide)
  intro qk hmem
  fin_cases hmem
  · norm_num
  · exact prime_2467859

theorem prime_98714381 : Nat.Prime 98714381 := by
  refine lucas_cert 98714381 2 [(2, 2), (5, 1), (4935719, 1)]
    (by norm_num) (by norm_num) (by decide) ?_ (by decide) (by decide)
  intro qk hmem
  fin_cases hmem
  · norm_num
  · norm_num
  · exact prime_4935719

theorem prime_9269339 : Nat.Prime 9269339 := by
  refine lucas_cert 9269339 6 [(2, 1), (13, 1), (43, 1), (8291, 1)]
    (by norm_num) (by norm_num) (by decide) ?_ (by decide) (by decide)
  intro qk hmem
  fin_cases hmem <;> norm_num

theorem prime_166848103 : Nat.Prime 166848103 := by
  refine lucas_cert 166848103 6 [(2, 1), (3, 2), (9269339, 1)]
    (by norm_num) (by norm_num) (by decide) ?_ (by decide) (by decide)
  intro qk hmem
  fin_cases hmem
  · norm_num
  · norm_num
  · exact prime_9269339

set_option maxRecDepth 40000 in
theorem pStark_prime : Nat.Prime pStark := by
  refine lucas_cert pStark 3 [(2, 192), (5, 1), (7, 1), (98714381, 1), (166848103, 1)]
    (by norm_num [pStark]) pStark_lt_exp (by norm_num [pStark]) ?_ (by decide) (by decide)
  intro qk hmem
  fin_cases hmem
  · norm_num
  · norm_num
  · norm_num
  · exact prime_98714381
  · exact prime_166848103

instance : Fact (Nat.Prime pStark) := ⟨pStark_prime⟩

/-! ## Field layer -/

/-- Modelled from the spec: the error kinds of the core
(`InvalidEncoding`, `DivisionByZero`, `PointNotOnCurve`, `ScalarOutOfRange`). -/
inductive CryptoError where
  | invalidEncoding
  | divisionByZero
  | pointNotOnCurve
  | scalarOutOfRange
deriving DecidableEq, Repr

/-- Modelled from the spec: field addition modulo `p`, result canonical. -/
def fAdd (a b : Nat) : Nat := (a + b) % pStark

/-- Modelled from the spec: field subtraction modulo `p` (canonical inputs). -/
def fSub (a b : Nat) : Nat := (a + (pStark - b)) % pStark

/-- Modelled from the spec: field negation modulo `p`. -/
def fNeg (a : Nat) : Nat := (pStark - a) % pStark

/-- Modelled from the spec: field multiplication modulo `p`, result canonical. -/
def fMul (a b : Nat) : Nat := a * b % pStark

/-- Modelled from the spec: the raw Fermat inverse `a^(p-2) mod p`, used inside
the curve formulas where the inverted value is known to be nonzero. -/
def fInvRaw (a : Nat) : Nat := powMod pStark a (pStark - 2)

/-- Modelled from the spec: the field `inverse` operation.  Inverse of zero
fails with `DivisionByZero`; inverse of nonzero `a` returns `a^-1`. -/
def feltInv (a : Nat) : Except CryptoError Nat :=
  if a = 0 then Except.error CryptoError.divisionByZero else Except.ok (fInvRaw a)

theorem fAdd_lt (a b : Nat) : fAdd a b < pStark := Nat.mod_lt _ pStark_pos
theorem fSub_lt (a b : Nat) : fSub a b < pStark := Nat.mod_lt _ pStark_pos
theorem fNeg_lt (a : Nat) : fNeg a < pStark := Nat.mod_lt _ pStark_pos
theorem fMul_lt (a b : Nat) : fMul a b < pStark := Nat.mod_lt _ pStark_pos

theorem pStark_sub_two_lt : pStark - 2 < 2 ^ 256 :=
  lt_of_le_of_lt (Nat.sub_le_sub_left (by norm_num) pStark) pStark_lt_exp

theorem fInvRaw_lt (a : Nat) : fInvRaw a < pStark := by
  rw [fInvRaw, powMod_eq _ _ _ pStark_sub_two_lt]
  exact Nat.mod_lt _ pStark_pos

/-- The cast of a nonzero canonical Nat into `ZMod p` is nonzero. -/
theorem zmod_cast_ne_zero {a : Nat} (h0 : a ≠ 0) (hlt : a < pStark) :
    (a : ZMod pStark) ≠ 0 := by
  intro hc
  rcases (ZMod.natCast_zmod_eq_zero_iff_dvd a pStark).mp hc with ⟨k, hk⟩
  rcases k with _ | k
  · omega
  · have : pStark ≤ a := by
      rw [hk]; exact Nat.le_mul_of_pos_right _ (Nat.succ_pos _)
    omega

theorem cast_fMul (a b : Nat) :
    ((fMul a b : Nat) : ZMod pStark) = (a : ZMod pStark) * (b : ZMod pStark) := by
  rw [fMul, ZMod.natCast_mod, Nat.cast_mul]

theorem cast_fAdd (a b : Nat) :
    ((fAdd a b : Nat) : ZMod pStark) = (a : ZMod pStark) + (b : ZMod pStark) := by
  rw [fAdd, ZMod.natCast_mod, Nat.cast_add]

theorem cast_fSub (a b : Nat) (hb : b ≤ pStark) :
    ((fSub a b : Nat) : ZMod pStark) = (a : ZMod pStark) - (b : ZMod pStark) := by
  rw [fSub, ZMod.natCast_mod, Nat.cast_add]
  have h1 : ((pStark - b : Nat) : ZMod pStark) = ((pStark : Nat) : ZMod pStark) - b := by
    have : pStark - b + b = pStark := Nat.sub_add_cancel hb
    have hc := congrArg (fun t : Nat => ((t : Nat) : ZMod pStark)) this
    simp only [Nat.cast_add] at hc
    linear_combination hc
  rw [h1, ZMod.natCast_self]
  ring

theorem cast_fNeg (a : Nat) (ha : a ≤ pStark) :
    ((fNeg a : Nat) : ZMod pStark) = -(a : ZMod pStark) := by
  have h := cast_fSub 0 a ha
  simp only [fSub, fNeg, Nat.zero_add, Nat.cast_zero, zero_sub] at h
  exact h

theorem cast_fInvRaw (a : Nat) :
    ((fInvRaw a : Nat) : ZMod pStark) = (a : ZMod pStark) ^ (pStark - 2) := by
  rw [fInvRaw, cast_powMod _ _ pStark_sub_two_lt]

/-- Fermat inversion: for `a` with nonzero image, `a * a^(p-2) = 1` in `ZMod p`. -/
theorem zmod_mul_fInvRaw {a : Nat} (h0 : a ≠ 0) (hlt : a < pStark) :
    (a : ZMod pStark) * ((fInvRaw a : Nat) : ZMod pStark) = 1 := by
  rw [cast_fInvRaw]
  have hz := zmod_cast_ne_zero h0 hlt
  have h1 : (a : ZMod pStark) * (a : ZMod pStark) ^ (pStark - 2)
      = (a : ZMod pStark) ^ (pStark - 1) := by
    have h2 : pStark - 2 + 1 = pStark - 1 := by
      have := pStark_gt_two; omega
    rw [mul_comm, ← pow_succ, h2]
  rw [h1, ZMod.pow_card_sub_one_eq_one hz]

/-! ## 32-byte big-endian encoding -/

/-- Big-endian byte expansion: `toBytesBEAux k n` is the `k`-byte big-endian
encoding of `n mod 256^k`. -/
def toBytesBEAux : Nat → Nat → List Nat
  | 0, _ => []
  | k+1, n => toBytesBEAux k (n / 256) ++ [n % 256]

/-- Modelled from the spec: the fixed 32-byte big-endian encoding of a felt. -/
def encodeFelt (a : Nat) : List Nat := toBytesBEAux 32 a

/-- Big-endian byte interpretation of a byte list as an integer. -/
def fromBytesBE (bs : List Nat) : Nat := bs.foldl (fun acc b => acc * 256 + b) 0

/-- Modelled from the spec: decoding of a 32-byte value; a value `≥ p` fails
with `InvalidEncoding`. -/
def decodeFelt (bs : List Nat) : Except CryptoError Nat :=
  if fromBytesBE bs < pStark then Except.ok (fromBytesBE bs)
  else Except.error CryptoError.invalidEncoding

theorem toBytesBEAux_length : ∀ k n : Nat, (toBytesBEAux k n).length = k := by
  intro k
  induction k with
  | zero => intro n; rfl
  | succ k ih =>
    intro n
    simp [toBytesBEAux, ih]

theorem toBytesBEAux_bytes_lt : ∀ k n : Nat, ∀ b ∈ toBytesBEAux k n, b < 256 := by
  intro k
  induction k with
  | zero => intro n b hb; simp [toBytesBEAux] at hb
  | succ k ih =>
    intro n b hb
    simp only [toBytesBEAux, List.mem_append, List.mem_singleton] at hb
    rcases hb with hb | hb
    · exact ih _ b hb
    · subst hb; exact Nat.mod_lt _ (by norm_num)

theorem fromBytesBE_append_one (l : List Nat) (b : Nat) :
    fromBytesBE (l ++ [b]) = fromBytesBE l * 256 + b := by
  simp [fromBytesBE, List.foldl_append]

theorem fromBytesBE_toBytesBEAux : ∀ k n : Nat, n < 256 ^ k →
    fromBytesBE (toBytesBEAux k n) = n := by
  intro k
  induction k with
  | zero =>
    intro n hn
    interval_cases n
    rfl
  | succ k ih =>
    intro n hn
    have hdiv : n / 256 < 256 ^ k := by
      rw [Nat.div_lt_iff_lt_mul (by norm_num : 0 < 256)]
      rw [pow_succ] at hn
      exact hn
    rw [toBytesBEAux, fromBytesBE_append_one, ih _ hdiv]
    omega

theorem pStark_lt_byte_range : pStark < 256 ^ 32 := by norm_num [pStark]

/-- C6: decoding the fixed 32-byte big-endian encoding of a canonical field
element returns it exactly, and decoding any 32-byte value whose integer value
is `p` or greater fails with `InvalidEncoding`. -/
theorem decode_encode_roundtrip (a : Nat) (ha : a < pStark) :
    decodeFelt (encodeFelt a) = Except.ok a ∧
    (encodeFelt a).length = 32 ∧
    ∀ bs : List Nat, bs.length = 32 → pStark ≤ fromBytesBE bs →
      decodeFelt bs = Except.error CryptoError.invalidEncoding := by
  refine ⟨?_, toBytesBEAux_length 32 a, ?_⟩
  · have hrt : fromBytesBE (encodeFelt a) = a :=
      fromBytesBE_toBytesBEAux 32 a (lt_trans ha pStark_lt_byte_range)
    rw [decodeFelt, hrt, if_pos ha]
  · intro bs _ hge
    rw [decodeFelt, if_neg (not_lt.mpr hge)]

/-- Witness for C6 at the concrete canonical value `a = 5`. -/
theorem decode_encode_roundtrip_witness :
    decodeFelt (encodeFelt 5) = Except.ok 5 ∧
    (encodeFelt 5).length = 32 ∧
    ∀ bs : List Nat, bs.length = 32 → pStark ≤ fromBytesBE bs →
      decodeFelt bs = Except.error CryptoError.invalidEncoding :=
  decode_encode_roundtrip 5 (by norm_num [pStark])

/-- C5: for every nonzero canonical field element `a`, the inverse succeeds and
`a * inverse(a) ≡ 1 (mod p)`; the inverse of `0` fails with `DivisionByZero`. -/
theorem inverse_mul_cancel (a : Nat) (h0 : a ≠ 0) (hlt : a < pStark) :
    (∃ b, feltInv a = Except.ok b ∧ a * b % pStark = 1) ∧
    feltInv 0 = Except.error CryptoError.divisionByZero := by
  refine ⟨⟨fInvRaw a, ?_, ?_⟩, rfl⟩
  · rw [feltInv, if_neg h0]
  · have hz := zmod_mul_fInvRaw h0 hlt
    have hcast : ((a * fInvRaw a % pStark : Nat) : ZMod pStark)
        = ((1 : Nat) : ZMod pStark) := by
      rw [ZMod.natCast_mod, Nat.cast_mul, hz, Nat.cast_one]
    exact zmod_nat_inj (Nat.mod_lt _ pStark_pos)
      (lt_trans (by norm_num) pStark_gt_two) hcast

/-- Witness for C5 at the concrete nonzero value `a = 3`. -/
theorem inverse_mul_cancel_witness :
    (∃ b, feltInv 3 = Except.ok b ∧ 3 * b % pStark = 1) ∧
    feltInv 0 = Except.error CryptoError.divisionByZero :=
  inverse_mul_cancel 3 (by decide) (by norm_num [pStark])

/-! ## Curve layer -/

/-- Modelled from the spec: the coefficient `α` of the fixed curve
`y² = x³ + α·x + β` (external versioned reference data; Stark curve value). -/
def alphaStark : Nat := 1

/-- Modelled from the spec: the coefficient `β` of the fixed curve
(external versioned reference data; Stark curve value). -/
def betaStark : Nat :=
  3141592653589793238462643383279502884197169399375105820974944592307816406665

/-- Modelled from the spec: the fixed prime order `n` of the generator
(external versioned reference data; Stark curve value). -/
def nStark : Nat :=
  3618502788666131213697322783095070105526743751716087489154079457884512865583

/-- Modelled from the spec: x-coordinate of the fixed generator `G`. -/
def gxStark : Nat :=
  874739451078007766457464989774322083649278607533249481151382481072868806602

/-- Modelled from the spec: y-coordinate of the fixed generator `G`. -/
def gyStark : Nat :=
  152666792071518830868575557812948353041420400780739481342941381225525861407

/-- Modelled from the spec: a curve point is the point at infinity (identity)
or an affine pair of field elements — a tagged variant, not sentinel values. -/
inductive CurvePoint where
  | identity
  | affine (x y : Nat)
deriving DecidableEq, Repr

/-- The right-hand side `x³ + α·x + β` of the curve equation, canonical. -/
def curveRhs (x : Nat) : Nat :=
  fAdd (fAdd (fMul (fMul x x) x) (fMul alphaStark x)) betaStark

/-- Modelled from the spec: the on-curve membership test `y² = x³ + αx + β`,
together with canonicality of the coordinates. -/
def CurvePoint.onCurve : CurvePoint → Prop
  | .identity => True
  | .affine x y => x < pStark ∧ y < pStark ∧ fMul y y = curveRhs x

instance : ∀ P : CurvePoint, Decidable P.onCurve
  | .identity => .isTrue trivial
  | .affine _ _ => instDecidableAnd

/-- The chord slope `(y2 - y1) / (x2 - x1)` of the generic addition formula. -/
def chordSlope (x1 y1 x2 y2 : Nat) : Nat :=
  fMul (fSub y2 y1) (fInvRaw (fSub x2 x1))

/-- The tangent slope `(3x² + α) / (2y)` of the dedicated doubling formula. -/
def tangentSlope (x y : Nat) : Nat :=
  fMul (fAdd (fMul 3 (fMul x x)) alphaStark) (fInvRaw (fMul 2 y))

/-- The output coordinates `(l² - x1 - x2, l·(x1 - x3) - y1)` shared by the
chord and tangent formulas. -/
def addCoords (l x1 y1 x2 : Nat) : Nat × Nat :=
  (fSub (fSub (fMul l l) x1) x2,
   fSub (fMul l (fSub x1 (fSub (fSub (fMul l l) x1) x2))) y1)

/-- Modelled from the spec: the dedicated doubling formula
(tangent slope `(3x² + α) / (2y)`), with the degenerate `y = 0` case giving
the identity. -/
def ecDouble : CurvePoint → CurvePoint
  | .identity => .identity
  | .affine x y =>
    if y = 0 then .identity
    else .affine (addCoords (tangentSlope x y) x y x).1
      (addCoords (tangentSlope x y) x y x).2

/-- Modelled from the spec: point addition by the chord formula, with the
identity and doubling handled as special cases. -/
def ecAdd : CurvePoint → CurvePoint → CurvePoint
  | .identity, q => q
  | p, .identity => p
  | .affine x1 y1, .affine x2 y2 =>
    if x1 = x2 then
      if y1 = fNeg y2 then .identity
      else ecDouble (.affine x1 y1)
    else .affine (addCoords (chordSlope x1 y1 x2 y2) x1 y1 x2).1
      (addCoords (chordSlope x1 y1 x2 y2) x1 y1 x2).2

/-- Modelled from the spec: point negation. -/
def ecNeg : CurvePoint → CurvePoint
  | .identity => .identity
  | .affine x y => .affine x (fNeg y)

/-- Double-and-add scalar multiplication, fuel-driven (structural) so the
kernel can evaluate it on 252-bit scalars. -/
def ecMulAux : Nat → CurvePoint → Nat → CurvePoint
  | 0, _, _ => .identity
  | fuel+1, p, k =>
    if k = 0 then .identity
    else
      let r := ecMulAux fuel (ecDouble p) (k / 2)
      if k % 2 = 1 then ecAdd r p else r

/-- Modelled from the spec: scalar multiplication by double-and-add. -/
def ecMul (k : Nat) (p : CurvePoint) : CurvePoint := ecMulAux 256 p k

theorem pStark_odd : pStark % 2 = 1 := by norm_num [pStark]

theorem fNeg_fNeg {y : Nat} (hy : y < pStark) : fNeg (fNeg y) = y := by
  rcases Nat.eq_zero_or_pos y with rfl | hpos
  · simp [fNeg, Nat.mod_self]
  · have h1 : fNeg y = pStark - y := by
      rw [fNeg, Nat.mod_eq_of_lt (by omega)]
    rw [h1, fNeg, Nat.sub_sub_self (le_of_lt hy), Nat.mod_eq_of_lt hy]

theorem fNeg_ne_self {y : Nat} (hy : y < pStark) (h0 : y ≠ 0) : y ≠ fNeg y := by
  have h1 : fNeg y = pStark - y := by
    rw [fNeg, Nat.mod_eq_of_lt (by omega)]
  rw [h1]
  intro hc
  have := pStark_odd
  omega

theorem ecMulAux_zero : ∀ (fuel : Nat) (p : CurvePoint), ecMulAux fuel p 0 = .identity
  | 0, _ => rfl
  | fuel+1, p => by rw [ecMulAux, if_pos rfl]

theorem ecDouble_identity : ecDouble .identity = .identity := rfl

theorem ecAdd_identity_left (q : CurvePoint) : ecAdd .identity q = q := by
  cases q <;> rfl

theorem ecAdd_identity_right (p : CurvePoint) : ecAdd p .identity = p := by
  cases p <;> rfl

theorem ecMulAux_identity : ∀ (fuel k : Nat), ecMulAux fuel .identity k = .identity := by
  intro fuel
  induction fuel with
  | zero => intro k; rfl
  | succ fuel ih =>
    intro k
    by_cases hk : k = 0
    · rw [hk, ecMulAux_zero]
    · rw [ecMulAux, if_neg hk, ecDouble_identity, ih (k / 2)]
      by_cases h2 : k % 2 = 1
      · rw [if_pos h2, ecAdd_identity_left]
      · rw [if_neg h2]

theorem ecMulAux_one (fuel : Nat) (p : CurvePoint) : ecMulAux (fuel+1) p 1 = p := by
  rw [ecMulAux]
  simp [ecMulAux_zero, ecAdd_identity_left]

theorem ecMul_one (p : CurvePoint) : ecMul 1 p = p := by
  rw [ecMul]
  exact ecMulAux_one 255 p

theorem ecAdd_self_eq_double (x y : Nat) (hy : y < pStark) :
    ecAdd (.affine x y) (.affine x y) = ecDouble (.affine x y) := by
  rcases Nat.eq_zero_or_pos y with rfl | hpos
  · rw [ecAdd, if_pos rfl, if_pos (by rw [fNeg, Nat.sub_zero, Nat.mod_self]), ecDouble,
      if_pos rfl]
  · rw [ecAdd, if_pos rfl, if_neg (fNeg_ne_self hy (by omega))]

theorem ecAdd_neg_self (p : CurvePoint) (hP : p.onCurve) :
    ecAdd p (ecNeg p) = .identity := by
  cases p with
  | identity => rfl
  | affine x y =>
    obtain ⟨_, hy, _⟩ := hP
    rw [ecNeg, ecAdd, if_pos rfl, if_pos (fNeg_fNeg hy).symm]

/-! ## Bridge to the Weierstrass curve over `ZMod p` -/

/-- The fixed curve `y² = x³ + α·x + β` as a Mathlib Weierstrass curve over
`ZMod p`. -/
def Wstark : WeierstrassCurve.Affine (ZMod pStark) :=
  { a₁ := 0, a₂ := 0, a₃ := 0,
    a₄ := (alphaStark : ZMod pStark), a₆ := (betaStark : ZMod pStark) }

theorem Wstark_a1 : Wstark.a₁ = 0 := rfl
theorem Wstark_a2 : Wstark.a₂ = 0 := rfl
theorem Wstark_a3 : Wstark.a₃ = 0 := rfl
theorem Wstark_a4 : Wstark.a₄ = (alphaStark : ZMod pStark) := rfl
theorem Wstark_a6 : Wstark.a₆ = (betaStark : ZMod pStark) := rfl

theorem curveRhs_lt (x : Nat) : curveRhs x < pStark := Nat.mod_lt _ pStark_pos

theorem cast_curveRhs (x : Nat) : ((curveRhs x : Nat) : ZMod pStark)
    = (x : ZMod pStark) ^ 3 + (alphaStark : ZMod pStark) * x + (betaStark : ZMod pStark) := by
  rw [curveRhs, cast_fAdd, cast_fAdd, cast_fMul, cast_fMul, cast_fMul]
  ring

/-- The Nat-level on-curve test agrees with the Weierstrass equation. -/
theorem wstark_equation_iff {x y : Nat} (hx : x < pStark) (hy : y < pStark) :
    fMul y y = curveRhs x ↔ Wstark.Equation (x : ZMod pStark) (y : ZMod pStark) := by
  rw [WeierstrassCurve.Affine.equation_iff]
  simp only [Wstark_a1, Wstark_a2, Wstark_a3, Wstark_a4, Wstark_a6]
  constructor
  · intro h
    have hc := congrArg (Nat.cast : Nat → ZMod pStark) h
    rw [cast_fMul, cast_curveRhs] at hc
    linear_combination hc
  · intro h
    refine zmod_nat_inj (fMul_lt y y) (curveRhs_lt x) ?_
    rw [cast_fMul, cast_curveRhs]
    linear_combination h

theorem zmod_two_ne_zero : (2 : ZMod pStark) ≠ 0 := by
  have h := zmod_cast_ne_zero (a := 2) (by norm_num) pStark_gt_two
  rwa [Nat.cast_ofNat] at h

theorem cast_fInvRaw_eq_inv {d : Nat} (h0 : d ≠ 0) (hd : d < pStark) :
    ((fInvRaw d : Nat) : ZMod pStark) = ((d : Nat) : ZMod pStark)⁻¹ :=
  eq_inv_of_mul_eq_one_left (by rw [mul_comm]; exact zmod_mul_fInvRaw h0 hd)

/-- A canonical Nat whose image in `ZMod p` is nonzero is itself nonzero. -/
theorem ne_zero_of_cast_ne_zero {d : Nat} (h : ((d : Nat) : ZMod pStark) ≠ 0) : d ≠ 0 := by
  intro hc
  exact h (by rw [hc, Nat.cast_zero])

/-- The two output coordinates of an addition step are canonical and satisfy
the curve equation, whenever the slope argument is the Weierstrass slope of
two on-curve points with admissible relative position. -/
theorem addCoords_onCurve {x1 y1 x2 y2 l : Nat}
    (hx1 : x1 < pStark) (hy1 : y1 < pStark) (hx2 : x2 < pStark) (hy2 : y2 < pStark)
    (he1 : fMul y1 y1 = curveRhs x1) (he2 : fMul y2 y2 = curveRhs x2)
    (hxy : (x1 : ZMod pStark) = (x2 : ZMod pStark) →
      (y1 : ZMod pStark) ≠ Wstark.negY (x2 : ZMod pStark) (y2 : ZMod pStark))
    (hl : ((l : Nat) : ZMod pStark)
      = Wstark.slope (x1 : ZMod pStark) (x2 : ZMod pStark) (y1 : ZMod pStark) (y2 : ZMod pStark)) :
    (CurvePoint.affine (addCoords l x1 y1 x2).1 (addCoords l x1 y1 x2).2).onCurve := by
  have he1' := (wstark_equation_iff hx1 hy1).mp he1
  have he2' := (wstark_equation_iff hx2 hy2).mp he2
  have hx3lt : (addCoords l x1 y1 x2).1 < pStark := fSub_lt _ _
  have hy3lt : (addCoords l x1 y1 x2).2 < pStark := fSub_lt _ _
  have hx3 : (((addCoords l x1 y1 x2).1 : Nat) : ZMod pStark)
      = Wstark.addX (x1 : ZMod pStark) (x2 : ZMod pStark)
          (Wstark.slope (x1 : ZMod pStark) (x2 : ZMod pStark) (y1 : ZMod pStark) (y2 : ZMod pStark)) := by
    rw [addCoords, cast_fSub _ _ (le_of_lt hx2), cast_fSub _ _ (le_of_lt hx1),
      cast_fMul, hl, WeierstrassCurve.Affine.addX]
    simp only [Wstark_a1, Wstark_a2]
    ring
  have hy3 : (((addCoords l x1 y1 x2).2 : Nat) : ZMod pStark)
      = Wstark.addY (x1 : ZMod pStark) (x2 : ZMod pStark) (y1 : ZMod pStark)
          (Wstark.slope (x1 : ZMod pStark) (x2 : ZMod pStark) (y1 : ZMod pStark) (y2 : ZMod pStark)) := by
    rw [WeierstrassCurve.Affine.addY, WeierstrassCurve.Affine.negY,
      WeierstrassCurve.Affine.negAddY]
    have hx3' := hx3
    rw [addCoords] at hx3' ⊢
    rw [cast_fSub _ _ (le_of_lt hy1), cast_fMul,
      cast_fSub _ _ (le_of_lt (fSub_lt (fSub (fMul l l) x1) x2)), hx3', hl]
    simp only [Wstark_a1, Wstark_a3]
    ring
  refine ⟨hx3lt, hy3lt, ?_⟩
  rw [wstark_equation_iff hx3lt hy3lt, hx3, hy3]
  exact Wstark.equation_add he1' he2' hxy

theorem wstark_negY_eq (x y : ZMod pStark) : Wstark.negY x y = -y := by
  rw [WeierstrassCurve.Affine.negY]
  simp only [Wstark_a1, Wstark_a3]
  ring

theorem ecDouble_onCurve (P : CurvePoint) (hP : P.onCurve) : (ecDouble P).onCurve := by
  cases P with
  | identity => trivial
  | affine x y =>
    obtain ⟨hx, hy, he⟩ := hP
    by_cases hy0 : y = 0
    · rw [ecDouble, if_pos hy0]; trivial
    · rw [ecDouble, if_neg hy0]
      have hyz : ((y : Nat) : ZMod pStark) ≠ 0 := zmod_cast_ne_zero hy0 hy
      have h2y : ((fMul 2 y : Nat) : ZMod pStark) ≠ 0 := by
        rw [cast_fMul, Nat.cast_ofNat]
        exact mul_ne_zero zmod_two_ne_zero hyz
      have hynegY : (y : ZMod pStark) ≠ Wstark.negY (x : ZMod pStark) (y : ZMod pStark) := by
        rw [wstark_negY_eq]
        intro hc
        have h20 : (2 : ZMod pStark) * (y : ZMod pStark) = 0 := by
          linear_combination hc
        rcases mul_eq_zero.mp h20 with h | h
        · exact zmod_two_ne_zero h
        · exact hyz h
      have hl : ((tangentSlope x y : Nat) : ZMod pStark)
          = Wstark.slope (x : ZMod pStark) (x : ZMod pStark) (y : ZMod pStark) (y : ZMod pStark) := by
        rw [WeierstrassCurve.Affine.slope_of_Y_ne rfl hynegY, wstark_negY_eq]
        simp only [Wstark_a1, Wstark_a2, Wstark_a4]
        rw [tangentSlope, cast_fMul, cast_fAdd, cast_fMul, cast_fMul,
          cast_fInvRaw_eq_inv (ne_zero_of_cast_ne_zero h2y) (fMul_lt 2 y), cast_fMul]
        rw [div_eq_mul_inv]
        push_cast
        congr 1
        · ring
        · congr 1
          ring
      exact addCoords_onCurve hx hy hx hy he he (fun _ => hynegY) hl

theorem ecAdd_onCurve (P Q : CurvePoint) (hP : P.onCurve) (hQ : Q.onCurve) :
    (ecAdd P Q).onCurve := by
  cases P with
  | identity => rw [ecAdd_identity_left]; exact hQ
  | affine x1 y1 =>
    cases Q with
    | identity => rw [ecAdd_identity_right]; exact hP
    | affine x2 y2 =>
      obtain ⟨hx1, hy1, he1⟩ := hP
      obtain ⟨hx2, hy2, he2⟩ := hQ
      by_cases hx : x1 = x2
      · by_cases hy : y1 = fNeg y2
        · rw [ecAdd, if_pos hx, if_pos hy]; trivial
        · rw [ecAdd, if_pos hx, if_neg hy]
          exact ecDouble_onCurve _ ⟨hx1, hy1, he1⟩
      · rw [ecAdd, if_neg hx]
        have hcx : ((x1 : Nat) : ZMod pStark) ≠ ((x2 : Nat) : ZMod pStark) :=
          fun hc => hx (zmod_nat_inj hx1 hx2 hc)
        have hsub : ((x2 : Nat) : ZMod pStark) - ((x1 : Nat) : ZMod pStark) ≠ 0 :=
          sub_ne_zero.mpr (Ne.symm hcx)
        have hsubc : ((fSub x2 x1 : Nat) : ZMod pStark)
            = ((x2 : Nat) : ZMod pStark) - ((x1 : Nat) : ZMod pStark) :=
          cast_fSub x2 x1 (le_of_lt hx1)
        have hl : ((chordSlope x1 y1 x2 y2 : Nat) : ZMod pStark)
            = Wstark.slope (x1 : ZMod pStark) (x2 : ZMod pStark)
                (y1 : ZMod pStark) (y2 : ZMod pStark) := by
          rw [WeierstrassCurve.Affine.slope_of_X_ne hcx]
          rw [chordSlope, cast_fMul,
            cast_fInvRaw_eq_inv (ne_zero_of_cast_ne_zero (hsubc ▸ hsub)) (fSub_lt x2 x1),
            hsubc, cast_fSub y2 y1 (le_of_lt hy1)]
          rw [← div_eq_mul_inv, div_eq_div_iff hsub (sub_ne_zero.mpr hcx)]
          ring
        exact addCoords_onCurve hx1 hy1 hx2 hy2 he1 he2 (fun hc => absurd hc hcx) hl

theorem ecNeg_onCurve (P : CurvePoint) (hP : P.onCurve) : (ecNeg P).onCurve := by
  cases P with
  | identity => trivial
  | affine x y =>
    obtain ⟨hx, hy, he⟩ := hP
    refine ⟨hx, fNeg_lt y, ?_⟩
    have he' := (wstark_equation_iff hx hy).mp he
    have hneg := Wstark.equation_neg he'
    rw [wstark_negY_eq] at hneg
    rw [wstark_equation_iff hx (fNeg_lt y), cast_fNeg _ (le_of_lt hy)]
    exact hneg

theorem ecMulAux_onCurve : ∀ (fuel : Nat) (p : CurvePoint) (k : Nat),
    p.onCurve → (ecMulAux fuel p k).onCurve := by
  intro fuel
  induction fuel with
  | zero => intro p k _; trivial
  | succ fuel ih =>
    intro p k hp
    rw [ecMulAux]
    by_cases hk : k = 0
    · rw [if_pos hk]; trivial
    · rw [if_neg hk]
      have hr := ih (ecDouble p) (k / 2) (ecDouble_onCurve p hp)
      by_cases h2 : k % 2 = 1
      · rw [if_pos h2]
        exact ecAdd_onCurve _ _ hr hp
      · rw [if_neg h2]
        exact hr

theorem ecMul_onCurve (k : Nat) (P : CurvePoint) (hP : P.onCurve) :
    (ecMul k P).onCurve := ecMulAux_onCurve 256 P k hP

/-! ## Poseidon -/

/-- A width-3 state of field elements. -/
def Felts3 : Type := Nat × Nat × Nat

/-- The Poseidon S-box `x ↦ x³` over the field. -/
def sbox (x : Nat) : Nat := fMul (fMul x x) x

/-- Multiplication of the state vector by a 3×3 matrix over the field. -/
def mdsMul (m : Felts3 × Felts3 × Felts3) (s : Felts3) : Felts3 :=
  (fAdd (fAdd (fMul m.1.1 s.1) (fMul m.1.2.1 s.2.1)) (fMul m.1.2.2 s.2.2),
   fAdd (fAdd (fMul m.2.1.1 s.1) (fMul m.2.1.2.1 s.2.1)) (fMul m.2.1.2.2 s.2.2),
   fAdd (fAdd (fMul m.2.2.1 s.1) (fMul m.2.2.2.1 s.2.1)) (fMul m.2.2.2.2 s.2.2))

/-- Modelled from the spec: a full round adds a round constant to every state
element, applies the S-box to every element, then multiplies by the matrix. -/
def fullRound (m : Felts3 × Felts3 × Felts3) (c : Felts3) (s : Felts3) : Felts3 :=
  mdsMul m (sbox (fAdd s.1 c.1), sbox (fAdd s.2.1 c.2.1), sbox (fAdd s.2.2 c.2.2))

/-- Modelled from the spec: a partial round adds its round constant to only the
first state element, applies the S-box to only the first element, then
multiplies by the matrix. -/
def sparseRound (m : Felts3 × Felts3 × Felts3) (c : Nat) (s : Felts3) : Felts3 :=
  mdsMul m (sbox (fAdd s.1 c), s.2.1, s.2.2)

/-- Modelled from the spec: the fixed round structure and constant tables of
the Poseidon permutation (round counts, round constants and the 3×3
linear-layer matrix are external versioned reference data, absent from the
repository, so they are parameters of the model). -/
structure PoseidonParams where
  mds : Felts3 × Felts3 × Felts3
  firstFull : List Felts3
  middle : List Nat
  lastFull : List Felts3

/-- Modelled from the spec: the Poseidon permutation — an initial block of
full rounds, a middle block of partial rounds, and a final block of full
rounds, applied in place to the 3-element state. -/
def poseidonPermute (pp : PoseidonParams) (s : Felts3) : Felts3 :=
  pp.lastFull.foldl (fun t c => fullRound pp.mds c t)
    (pp.middle.foldl (fun t c => sparseRound pp.mds c t)
      (pp.firstFull.foldl (fun t c => fullRound pp.mds c t) s))

/-- Reference stage (from the spec's words): add a round constant to every
state element. -/
def refAddConstantsFull (c s : Felts3) : Felts3 :=
  (fAdd s.1 c.1, fAdd s.2.1 c.2.1, fAdd s.2.2 c.2.2)

/-- Reference stage (from the spec's words): the S-box on every element. -/
def refSboxFull (s : Felts3) : Felts3 := (sbox s.1, sbox s.2.1, sbox s.2.2)

/-- Reference stage (from the spec's words): add a round constant to only the
first element. -/
def refAddConstantFirst (c : Nat) (s : Felts3) : Felts3 := (fAdd s.1 c, s.2.1, s.2.2)

/-- Reference stage (from the spec's words): the S-box on only the first
element. -/
def refSboxFirst (s : Felts3) : Felts3 := (sbox s.1, s.2.1, s.2.2)

/-- Reference full-round block, written as explicit recursion over the
round-constant table, each round being constant-addition, then S-box, then the
linear layer. -/
def refFullBlock (m : Felts3 × Felts3 × Felts3) : List Felts3 → Felts3 → Felts3
  | [], s => s
  | c :: cs, s => refFullBlock m cs (mdsMul m (refSboxFull (refAddConstantsFull c s)))

/-- Reference partial-round block, written as explicit recursion. -/
def refMiddleBlock (m : Felts3 × Felts3 × Felts3) : List Nat → Felts3 → Felts3
  | [], s => s
  | c :: cs, s => refMiddleBlock m cs (mdsMul m (refSboxFirst (refAddConstantFirst c s)))

/-- Modelled from the spec: the reference Poseidon schedule — full rounds,
then partial rounds, then full rounds, each round in the order
constant-addition, S-box, matrix multiplication. -/
def poseidonReference (pp : PoseidonParams) (s : Felts3) : Felts3 :=
  refFullBlock pp.mds pp.lastFull
    (refMiddleBlock pp.mds pp.middle (refFullBlock pp.mds pp.firstFull s))

/-- Modelled from the spec: the official fixed reference output vector for the
all-zero state is the reference schedule's output on the all-zero state (the
numeric table is external versioned data, absent from the repository). -/
def referenceZeroVector (pp : PoseidonParams) : Felts3 := poseidonReference pp (0, 0, 0)

theorem refFullBlock_eq_foldl (m : Felts3 × Felts3 × Felts3) :
    ∀ (cs : List Felts3) (s : Felts3),
      refFullBlock m cs s = cs.foldl (fun t c => fullRound m c t) s := by
  intro cs
  induction cs with
  | nil => intro s; rfl
  | cons c cs ih =>
    intro s
    rw [refFullBlock, List.foldl_cons, ih]
    rfl

theorem refMiddleBlock_eq_foldl (m : Felts3 × Felts3 × Felts3) :
    ∀ (cs : List Nat) (s : Felts3),
      refMiddleBlock m cs s = cs.foldl (fun t c => sparseRound m c t) s := by
  intro cs
  induction cs with
  | nil => intro s; rfl
  | cons c cs ih =>
    intro s
    rw [refMiddleBlock, List.foldl_cons, ih]
    rfl

theorem poseidonPermute_eq_reference (pp : PoseidonParams) (s : Felts3) :
    poseidonPermute pp s = poseidonReference pp s := by
  rw [poseidonPermute, poseidonReference, refFullBlock_eq_foldl, refMiddleBlock_eq_foldl,
    refFullBlock_eq_foldl]

/-! ## Pedersen -/

/-- Modelled from the spec: the shift point and the four fixed constant points
`P1..P4` of the Pedersen hash (external versioned reference data, absent from
the repository, so they are parameters of the model). -/
structure PedersenParams where
  shift : CurvePoint
  p1 : CurvePoint
  p2 : CurvePoint
  p3 : CurvePoint
  p4 : CurvePoint

/-- The x-coordinate of a curve point (0 for the identity). -/
def xCoord : CurvePoint → Nat
  | .identity => 0
  | .affine x _ => x

/-- The low chunk: the first 248 bits of a felt. -/
def lowChunk (a : Nat) : Nat := a % 2 ^ 248

/-- The high chunk: the remaining up-to-4 bits of a felt. -/
def highChunk (a : Nat) : Nat := a / 2 ^ 248

/-- Modelled from the spec: the Pedersen accumulation — the shift point plus
the four constant points multiplied by the four scalar chunks, computed by a
left fold of addition of scalar multiples. -/
def pedersenPoint (pp : PedersenParams) (x y : Nat) : CurvePoint :=
  [(lowChunk x, pp.p1), (highChunk x, pp.p2), (lowChunk y, pp.p3), (highChunk y, pp.p4)].foldl
    (fun acc kp => ecAdd acc (ecMul kp.1 kp.2)) pp.shift

/-- Modelled from the spec: the two-input Pedersen hash, the x-coordinate of
the accumulated point. -/
def pedersenHash (pp : PedersenParams) (x y : Nat) : Nat := xCoord (pedersenPoint pp x y)

/-! ## Signature verification -/

/-- The fixed generator point `G`. -/
def genPoint : CurvePoint := .affine gxStark gyStark

/-- Scalar inverse modulo the (prime) curve order `n`, by Fermat. -/
def nInv (s : Nat) : Nat := powMod nStark s (nStark - 2)

/-- Least `i < fuel` with `t^(2^i) = 1 (mod p)`, else `fuel` (Tonelli–Shanks
inner search). -/
def tsOrd : Nat → Nat → Nat
  | 0, _ => 0
  | fuel+1, t => if t = 1 then 0 else tsOrd fuel (fMul t t) + 1

/-- The Tonelli–Shanks main loop (fuel-driven). -/
def tsLoop : Nat → Nat → Nat → Nat → Nat → Nat
  | 0, _, _, _, r => r
  | fuel+1, mm, c, t, r =>
    if t = 1 then r
    else
      let i := tsOrd mm t
      let b := powMod pStark c (2 ^ (mm - i - 1))
      tsLoop fuel i (fMul b b) (fMul t (fMul b b)) (fMul r b)

/-- Modelled from the spec: a square-root candidate modulo `p` by
Tonelli–Shanks (`p - 1 = q·2^192` with `q` odd; `3` is a quadratic
non-residue).  Callers must check the candidate, squared, against the
radicand. -/
def sqrtMod (a : Nat) : Nat :=
  tsLoop 193 192 (powMod pStark 3 ((pStark - 1) / 2 ^ 192))
    (powMod pStark a ((pStark - 1) / 2 ^ 192))
    (powMod pStark a (((pStark - 1) / 2 ^ 192 + 1) / 2))

/-- Modelled from the spec: the documented rule recovering the affine public
key from its x-coordinate; an x admitting no on-curve y yields `none`. -/
def recoverPoint (x : Nat) : Option CurvePoint :=
  if fMul (sqrtMod (curveRhs x)) (sqrtMod (curveRhs x)) = curveRhs x then
    some (.affine x (sqrtMod (curveRhs x)))
  else none

/-- Modelled from the spec: the verification procedure, abstracted over the
point operations it uses after the scalar and key validation stage, so that the
early-rejection property is provable for every choice of point arithmetic. -/
def verifyWithOps (smul : Nat → CurvePoint → CurvePoint)
    (padd : CurvePoint → CurvePoint → CurvePoint) (m r s pubx : Nat) : Bool :=
  if r = 0 ∨ nStark ≤ r ∨ s = 0 ∨ nStark ≤ s then false
  else
    match recoverPoint pubx with
    | none => false
    | some pk =>
      match padd (smul (m * nInv s % nStark) genPoint) (smul (r * nInv s % nStark) pk) with
      | .identity => false
      | .affine rx _ => decide (rx % nStark = r)

/-- Modelled from the spec (header `verify_signature(felt_t, felt_t, felt_t,
felt_t)`): signature verification over `(msg_hash, r, s, pubkey-x)`. -/
def verify_signature (m r s pubx : Nat) : Bool := verifyWithOps ecMul ecAdd m r s pubx

/-- Modelled from the spec's §4.5 words, step by step: reject `r`/`s` out of
`[1, n-1]`; reject a public key that is the identity or fails the on-curve
test; `w = s⁻¹ mod n`, `u1 = msg_hash·w mod n`, `u2 = r·w mod n`;
`R = u1·G + u2·pubkey`; reject the identity; accept iff `R.x mod n == r`. -/
def referenceVerify (m r s pubx : Nat) : Bool :=
  if r = 0 then false
  else if nStark ≤ r then false
  else if s = 0 then false
  else if nStark ≤ s then false
  else
    match recoverPoint pubx with
    | none => false
    | some .identity => false
    | some (.affine px py) =>
      if fMul py py = curveRhs px then
        match ecAdd (ecMul (m * nInv s % nStark) genPoint)
            (ecMul (r * nInv s % nStark) (.affine px py)) with
        | .identity => false
        | .affine rx _ => decide (rx % nStark = r)
      else false

/-! ## Byte-level interface (`felt_t` buffers) -/

/-- Modelled from the header: a `felt_t` buffer's integer value, reduced into
the field (the byte interface has no error channel). -/
def feltOfBytes (bs : List Nat) : Nat := fromBytesBE bs % pStark

/-- Modelled from the header `poseidon_permute(felt_t, felt_t, felt_t)`:
`void` return — the three 32-byte buffers are rewritten with the permuted
state; total on arbitrary byte input. -/
def poseidon_permute (pp : PoseidonParams) (a b c : List Nat) :
    List Nat × List Nat × List Nat :=
  (encodeFelt (poseidonPermute pp (feltOfBytes a, feltOfBytes b, feltOfBytes c)).1,
   encodeFelt (poseidonPermute pp (feltOfBytes a, feltOfBytes b, feltOfBytes c)).2.1,
   encodeFelt (poseidonPermute pp (feltOfBytes a, feltOfBytes b, feltOfBytes c)).2.2)

/-- Modelled from the header `pedersen_hash(felt_t, felt_t, felt_t)`: `void`
return — the output buffer receives the hash; total on arbitrary byte input. -/
def pedersen_hash (pp : PedersenParams) (a b : List Nat) : List Nat :=
  encodeFelt (pedersenHash pp (feltOfBytes a) (feltOfBytes b))

/-! ## Signature helper lemmas -/

theorem recoverPoint_none {x : Nat} (h : ∀ y : Nat, fMul y y ≠ curveRhs x) :
    recoverPoint x = none := by
  rw [recoverPoint, if_neg (h (sqrtMod (curveRhs x)))]

/-- Euler's criterion, the direction the model needs: a value whose
`(p-1)/2` power is not 1 modulo `p` has no square root modulo `p`. -/
theorem euler_no_sqrt {r : Nat} (hr : r < pStark) (hr0 : r ≠ 0)
    (h : powMod pStark r ((pStark - 1) / 2) ≠ 1) :
    ∀ y : Nat, fMul y y ≠ r := by
  intro y hc
  have hcast : ((y : Nat) : ZMod pStark) * ((y : Nat) : ZMod pStark)
      = ((r : Nat) : ZMod pStark) := by
    have := congrArg (Nat.cast : Nat → ZMod pStark) hc
    rwa [cast_fMul] at this
  have hy0 : ((y : Nat) : ZMod pStark) ≠ 0 := by
    intro h0
    apply zmod_cast_ne_zero hr0 hr
    rw [← hcast, h0, mul_zero]
  have hhalf : 2 * ((pStark - 1) / 2) = pStark - 1 := by
    have := pStark_odd
    omega
  have hpow : ((r : Nat) : ZMod pStark) ^ ((pStark - 1) / 2) = 1 := by
    rw [← hcast, ← pow_two, ← pow_mul, hhalf]
    exact ZMod.pow_card_sub_one_eq_one hy0
  exact zmod_pow_ne_one_of_powMod
    (lt_of_le_of_lt (Nat.div_le_self _ _) pStark_lt_exp) h hpow

theorem recoverPoint_some {x : Nat} {pk : CurvePoint} (h : recoverPoint x = some pk) :
    pk = CurvePoint.affine x (sqrtMod (curveRhs x)) ∧
    fMul (sqrtMod (curveRhs x)) (sqrtMod (curveRhs x)) = curveRhs x := by
  rw [recoverPoint] at h
  by_cases hc : fMul (sqrtMod (curveRhs x)) (sqrtMod (curveRhs x)) = curveRhs x
  · rw [if_pos hc] at h
    exact ⟨(Option.some_injective _ h).symm, hc⟩
  · rw [if_neg hc] at h
    exact absurd h (by simp)

/-! ## Claim theorems -/

theorem nStark_pos : 0 < nStark := by norm_num [nStark]

/-- C1: `verify_signature(msg_hash, r, s, pubkey)` implements exactly the
reference procedure — reject `r`/`s` zero or `≥ n`, reject a public key that
is the identity or off the curve, `w = s⁻¹ mod n`, `u1 = msg_hash·w mod n`,
`u2 = r·w mod n`, `R = u1·G + u2·pubkey`, reject the identity `R`, accept iff
`R.x mod n = r`; the returned boolean equals the reference procedure's on
every input quadruple. -/
theorem verify_signature_eq_reference (m r s pubx : Nat) :
    verify_signature m r s pubx = referenceVerify m r s pubx := by
  rw [verify_signature, verifyWithOps, referenceVerify]
  by_cases hd : r = 0 ∨ nStark ≤ r ∨ s = 0 ∨ nStark ≤ s
  · rw [if_pos hd]
    have hn := nStark_pos
    rcases hd with h | h | h | h
    · rw [if_pos h]
    · have h1 : r ≠ 0 := by omega
      rw [if_neg h1, if_pos h]
    · by_cases h1 : r = 0
      · rw [if_pos h1]
      · by_cases h2 : nStark ≤ r
        · rw [if_neg h1, if_pos h2]
        · rw [if_neg h1, if_neg h2, if_pos h]
    · by_cases h1 : r = 0
      · rw [if_pos h1]
      · by_cases h2 : nStark ≤ r
        · rw [if_neg h1, if_pos h2]
        · by_cases h3 : s = 0
          · rw [if_neg h1, if_neg h2, if_pos h3]
          · rw [if_neg h1, if_neg h2, if_neg h3, if_pos h]
  · rw [if_neg hd]
    push_neg at hd
    obtain ⟨h1, h2, h3, h4⟩ := hd
    rw [if_neg h1, if_neg (not_le.mpr h2), if_neg h3, if_neg (not_le.mpr h4)]
    rcases hrec : recoverPoint pubx with _ | pk
    · rfl
    · obtain ⟨hpk, hsq⟩ := recoverPoint_some hrec
      subst hpk
      dsimp only
      rw [if_pos hsq]

/-- C2: verification is a total predicate — malformed `r`, `s` (zero or
`≥ n`) or a public key failing the on-curve test yield `false`, and such
inputs are rejected for every choice of the point-arithmetic operations,
hence before any point addition or scalar multiplication is performed. -/
theorem verify_malformed_rejected (smul : Nat → CurvePoint → CurvePoint)
    (padd : CurvePoint → CurvePoint → CurvePoint) (m r s pubx : Nat)
    (h : r = 0 ∨ nStark ≤ r ∨ s = 0 ∨ nStark ≤ s ∨
      (∀ y : Nat, fMul y y ≠ curveRhs pubx)) :
    verifyWithOps smul padd m r s pubx = false ∧
    verify_signature m r s pubx = false := by
  have key : ∀ (f : Nat → CurvePoint → CurvePoint)
      (g : CurvePoint → CurvePoint → CurvePoint),
      verifyWithOps f g m r s pubx = false := by
    intro f g
    rw [verifyWithOps]
    by_cases hd : r = 0 ∨ nStark ≤ r ∨ s = 0 ∨ nStark ≤ s
    · rw [if_pos hd]
    · rw [if_neg hd]
      have hy : ∀ y : Nat, fMul y y ≠ curveRhs pubx := by
        rcases h with h | h | h | h | h
        · exact absurd (Or.inl h) hd
        · exact absurd (Or.inr (Or.inl h)) hd
        · exact absurd (Or.inr (Or.inr (Or.inl h))) hd
        · exact absurd (Or.inr (Or.inr (Or.inr h))) hd
        · exact h
      rw [recoverPoint_none hy]
  exact ⟨key smul padd, key ecMul ecAdd⟩

/-- Witness for C2: `r = 0` is rejected, also under point operations that do
no arithmetic at all. -/
theorem verify_malformed_rejected_witness :
    verifyWithOps (fun _ _ => CurvePoint.identity) (fun _ q => q) 1 0 1 0 = false ∧
    verify_signature 1 0 1 0 = false :=
  verify_malformed_rejected (fun _ _ => CurvePoint.identity) (fun _ q => q)
    1 0 1 0 (Or.inl rfl)

/-- C3: the Poseidon permutation is an initial block of full rounds, a middle
block of partial rounds and a final block of full rounds, each round being
round-constant addition (all elements in a full round, only the first in a
partial round), then the S-box `x ↦ x³` (likewise), then multiplication by
the fixed 3×3 linear-layer matrix; on the all-zero state it yields the fixed
reference output vector. -/
theorem poseidon_round_structure (pp : PoseidonParams) (s : Felts3) :
    poseidonPermute pp s = poseidonReference pp s ∧
    poseidonPermute pp (0, 0, 0) = referenceZeroVector pp ∧
    (∀ m c t, fullRound m c t = mdsMul m (refSboxFull (refAddConstantsFull c t))) ∧
    (∀ m c t, sparseRound m c t = mdsMul m (refSboxFirst (refAddConstantFirst c t))) := by
  refine ⟨poseidonPermute_eq_reference pp s, ?_, fun m c t => rfl, fun m c t => rfl⟩
  rw [referenceZeroVector, poseidonPermute_eq_reference]

/-- C4: for canonical inputs, `pedersen_hash(x, y)` is the x-coordinate
(never the y-coordinate) of
`shift + x_low·P1 + x_high·P2 + y_low·P3 + y_high·P4`, with each input split
into its first 248 bits and its remaining up-to-4 bits. -/
theorem pedersen_hash_structure (pp : PedersenParams) (x y : Nat)
    (hx : x < pStark) (hy : y < pStark) :
    pedersenHash pp x y =
      xCoord (ecAdd (ecAdd (ecAdd (ecAdd pp.shift (ecMul (x % 2 ^ 248) pp.p1))
        (ecMul (x / 2 ^ 248) pp.p2)) (ecMul (y % 2 ^ 248) pp.p3))
        (ecMul (y / 2 ^ 248) pp.p4)) ∧
    lowChunk x = x % 2 ^ 248 ∧ highChunk x = x / 2 ^ 248 ∧
    highChunk x < 2 ^ 4 ∧ highChunk y < 2 ^ 4 := by
  refine ⟨rfl, rfl, rfl, ?_, ?_⟩
  · rw [highChunk, Nat.div_lt_iff_lt_mul (by norm_num : (0:Nat) < 2 ^ 248)]
    exact lt_of_lt_of_le hx (by norm_num [pStark])
  · rw [highChunk, Nat.div_lt_iff_lt_mul (by norm_num : (0:Nat) < 2 ^ 248)]
    exact lt_of_lt_of_le hy (by norm_num [pStark])

/-- Witness for C4 at the concrete canonical inputs `x = 1`, `y = 2` and an
arbitrary concrete parameter set (all points the identity). -/
theorem pedersen_hash_structure_witness :
    pedersenHash ⟨.identity, .identity, .identity, .identity, .identity⟩ 1 2 =
      xCoord (ecAdd (ecAdd (ecAdd (ecAdd CurvePoint.identity
        (ecMul (1 % 2 ^ 248) CurvePoint.identity))
        (ecMul (1 / 2 ^ 248) CurvePoint.identity))
        (ecMul (2 % 2 ^ 248) CurvePoint.identity))
        (ecMul (2 / 2 ^ 248) CurvePoint.identity)) ∧
    lowChunk 1 = 1 % 2 ^ 248 ∧ highChunk 1 = 1 / 2 ^ 248 ∧
    highChunk 1 < 2 ^ 4 ∧ highChunk 2 < 2 ^ 4 :=
  pedersen_hash_structure ⟨.identity, .identity, .identity, .identity, .identity⟩
    1 2 (by norm_num [pStark]) (by norm_num [pStark])

/-- C7: the curve group laws of the model — `identity + P = P`,
`P + (-P) = identity`, `0·P = identity`, `1·P = P`, `k·identity = identity`,
and adding a point to itself agrees with the dedicated doubling formula. -/
theorem curve_group_laws (P : CurvePoint) (hP : P.onCurve) (k x y : Nat)
    (hy : y < pStark) :
    ecAdd .identity P = P ∧
    ecAdd P (ecNeg P) = .identity ∧
    ecMul 0 P = .identity ∧
    ecMul 1 P = P ∧
    ecMul k .identity = .identity ∧
    ecAdd (.affine x y) (.affine x y) = ecDouble (.affine x y) := by
  refine ⟨ecAdd_identity_left P, ecAdd_neg_self P hP, ?_, ecMul_one P, ?_,
    ecAdd_self_eq_double x y hy⟩
  · rw [ecMul]; exact ecMulAux_zero 256 P
  · rw [ecMul]; exact ecMulAux_identity 256 k

/-- Witness for C7 at the generator point and `k = 3`. -/
theorem curve_group_laws_witness :
    ecAdd .identity genPoint = genPoint ∧
    ecAdd genPoint (ecNeg genPoint) = .identity ∧
    ecMul 0 genPoint = .identity ∧
    ecMul 1 genPoint = genPoint ∧
    ecMul 3 .identity = .identity ∧
    ecAdd (.affine gxStark gyStark) (.affine gxStark gyStark)
      = ecDouble (.affine gxStark gyStark) :=
  curve_group_laws genPoint (by decide) 3 gxStark gyStark (by decide)

/-- C8: every operation preserves the data-model invariants — field results
are canonical, curve results are the identity or on-curve, and an accepted
signature has both components reduced into `[1, n-1]`. -/
theorem ops_preserve_invariants :
    (∀ a b : Nat, fAdd a b < pStark ∧ fSub a b < pStark ∧ fMul a b < pStark ∧
      fNeg a < pStark ∧ fInvRaw a < pStark) ∧
    (∀ P Q : CurvePoint, P.onCurve → Q.onCurve → (ecAdd P Q).onCurve) ∧
    (∀ P : CurvePoint, P.onCurve → (ecDouble P).onCurve ∧ (ecNeg P).onCurve) ∧
    (∀ (k : Nat) (P : CurvePoint), P.onCurve → (ecMul k P).onCurve) ∧
    (∀ m r s pubx : Nat, verify_signature m r s pubx = true →
      0 < r ∧ r < nStark ∧ 0 < s ∧ s < nStark) := by
  refine ⟨fun a b => ⟨fAdd_lt a b, fSub_lt a b, fMul_lt a b, fNeg_lt a, fInvRaw_lt a⟩,
    ecAdd_onCurve, fun P hP => ⟨ecDouble_onCurve P hP, ecNeg_onCurve P hP⟩,
    ecMul_onCurve, ?_⟩
  intro m r s pubx hv
  by_cases hd : r = 0 ∨ nStark ≤ r ∨ s = 0 ∨ nStark ≤ s
  · rw [verify_signature, verifyWithOps, if_pos hd] at hv
    exact absurd hv (by simp)
  · push_neg at hd
    omega

/-- C9: the byte-level `poseidon_permute` and `pedersen_hash` have no error
channel — they are total over every 32-byte input, canonical or not, and
always deliver well-formed 32-byte felt buffers. -/
theorem byte_interface_total (ppp : PoseidonParams) (pdp : PedersenParams)
    (a b c : List Nat) :
    (poseidon_permute ppp a b c).1.length = 32 ∧
    (poseidon_permute ppp a b c).2.1.length = 32 ∧
    (poseidon_permute ppp a b c).2.2.length = 32 ∧
    (∀ v ∈ (poseidon_permute ppp a b c).1, v < 256) ∧
    (∀ v ∈ (poseidon_permute ppp a b c).2.1, v < 256) ∧
    (∀ v ∈ (poseidon_permute ppp a b c).2.2, v < 256) ∧
    (pedersen_hash pdp a b).length = 32 ∧
    (∀ v ∈ pedersen_hash pdp a b, v < 256) :=
  ⟨toBytesBEAux_length _ _, toBytesBEAux_length _ _, toBytesBEAux_length _ _,
   toBytesBEAux_bytes_lt _ _, toBytesBEAux_bytes_lt _ _, toBytesBEAux_bytes_lt _ _,
   toBytesBEAux_length _ _, toBytesBEAux_bytes_lt _ _⟩

/-- C10: the public key reaches `verify_signature` as a single field element,
the x-coordinate; the y-coordinate is recovered internally, and an x that
admits no on-curve point makes recovery fail and verification return
`false`. -/
theorem verify_pubkey_unrecoverable (m r s pubx : Nat)
    (h : ∀ y : Nat, fMul y y ≠ curveRhs pubx) :
    recoverPoint pubx = none ∧ verify_signature m r s pubx = false := by
  refine ⟨recoverPoint_none h, ?_⟩
  rw [verify_signature, verifyWithOps]
  by_cases hd : r = 0 ∨ nStark ≤ r ∨ s = 0 ∨ nStark ≤ s
  · rw [if_pos hd]
  · rw [if_neg hd, recoverPoint_none h]

set_option maxRecDepth 40000 in
/-- Witness for C10: `x = 0` — the curve equation's right side `β` is a
quadratic non-residue, so no public key has x-coordinate zero. -/
theorem verify_pubkey_unrecoverable_witness :
    recoverPoint 0 = none ∧ verify_signature 1 1 1 0 = false :=
  verify_pubkey_unrecoverable 1 1 1 0
    (euler_no_sqrt (curveRhs_lt 0) (by decide) (by decide))
